import Mathlib

/-!
Shallow embedding of `deserializer.py` (nosj marshalled-map deserializer).

Conventions of the embedding:
* Python strings are `List Char`; the emitted output lines are `List Char`
  values collected in emission order (the Python code only ever appends to
  its `emit` list, so each parsing function here returns the lines it
  appended, and callers concatenate in the same order).
* Python exceptions become `Except PyErr`; `NosjErr` has one constructor per
  `raise NosjError(...)` site of the source, and `PyErr.valueError` models the
  `ValueError` that `bytearray.append` raises for a value above 255.
* The `while True` loop of `_parse_map_body` and its recursion into nested
  maps are modelled with a fuel parameter; the top-level entry point passes
  `length + 1` fuel, which is ample because every loop iteration consumes at
  least one character.  `PyErr.fuelExhausted` is the out-of-fuel marker; it
  does not correspond to any Python behaviour.
-/

namespace Nosj

instance {ε α : Type} [DecidableEq ε] [DecidableEq α] : DecidableEq (Except ε α) :=
  fun x y =>
    match x, y with
    | .ok a, .ok b =>
      if h : a = b then .isTrue (by rw [h]) else .isFalse (by intro hc; cases hc; exact h rfl)
    | .ok _, .error _ => .isFalse (by intro hc; cases hc)
    | .error _, .ok _ => .isFalse (by intro hc; cases hc)
    | .error e, .error f =>
      if h : e = f then .isTrue (by rw [h]) else .isFalse (by intro hc; cases hc; exact h rfl)

/-- Error kinds of `NosjError`, one constructor per `raise` site in
`deserializer.py` (the Python message of each site is given by
`NosjErr.msg` below). -/
inductive NosjErr where
  | expectedChar (c : Char)   -- Cursor.eat: f"Expected '{ch}'"
  | invalidPercent            -- _decode_percent_bytes
  | missingKey                -- _parse_key: "Missing key"
  | invalidKey (k : List Char)  -- _parse_key: f"Invalid key: {key!r}"
  | structuralChar            -- _parse_value: structural char inside value
  | complexNoPercent          -- _parse_value: complex string without %XX
  | whitespaceOutsideSimple   -- _parse_value: "Whitespace outside simple-string"
  | unrecognizedToken         -- _parse_value: "Unrecognized value token"
  | expectedComma             -- _parse_map_body: comma between pairs
  | duplicateKey              -- _parse_map_body: "Duplicate key in map"
  | expectedColon             -- _parse_map_body: colon after key
  | expectedCloseParen        -- _parse_map_body: ')' after nested map
  | internalError             -- _parse_map_body: "Internal error parsing value"
  | mapMustStart              -- parse_marshalled_map: "Map must start with '(<'"
  | mapMustEnd                -- parse_marshalled_map: "Map must end with ')'"
  | trailingChars             -- parse_marshalled_map: trailing characters
  deriving Repr, DecidableEq

/-- Python exception classes that can escape `parse_marshalled_map`:
`NosjError`, and the `ValueError` raised by `bytearray.append` on a value
above 255.  `fuelExhausted` is an artifact of the fuel-based embedding of
the parser loop and corresponds to no Python behaviour. -/
inductive PyErr where
  | nosj (e : NosjErr)
  | valueError
  | fuelExhausted
  deriving Repr, DecidableEq

/-- Single-quote character (for rendering the Python error messages). -/
def sq : Char := Char.ofNat 39

/-- The Python message text of each `raise NosjError(...)` site. -/
def NosjErr.msg : NosjErr → List Char
  | .expectedChar c => "Expected ".toList ++ [sq, c, sq]
  | .invalidPercent => "Invalid percent-encoding in complex string".toList
  | .missingKey => "Missing key".toList
  | .invalidKey k => "Invalid key: ".toList ++ [sq] ++ k ++ [sq]
  | .structuralChar => "Unexpected structural character inside value".toList
  | .complexNoPercent => "Complex string must contain at least one %XX".toList
  | .whitespaceOutsideSimple => "Whitespace outside simple-string".toList
  | .unrecognizedToken => "Unrecognized value token".toList
  | .expectedComma => "Expected ".toList ++ [sq, ',', sq] ++ " between key-value pairs".toList
  | .duplicateKey => "Duplicate key in map".toList
  | .expectedColon => "Expected ".toList ++ [sq, ':', sq] ++ " after key".toList
  | .expectedCloseParen => "Expected ".toList ++ [sq, ')', sq] ++ " after nested map".toList
  | .internalError => "Internal error parsing value".toList
  | .mapMustStart => "Map must start with ".toList ++ [sq, '(', '<', sq]
  | .mapMustEnd => "Map must end with ".toList ++ [sq, ')', sq]
  | .trailingChars => "Trailing characters after top-level map".toList

/-- `str(e)` for the exceptions caught by `main`. -/
def PyErr.msg : PyErr → List Char
  | .nosj e => e.msg
  | .valueError => "byte must be in range(0, 256)".toList
  | .fuelExhausted => "recursion limit exceeded".toList

/-- The `Cursor` class: the source text and the current offset
(`n` of the Python class is `s.length`). -/
structure Cursor where
  s : List Char
  i : Nat
  deriving Repr, DecidableEq

/-- `Cursor.peek`: character at offset `i + k`, `none` standing for the
Python out-of-range sentinel `''`. -/
def Cursor.peek (cur : Cursor) (k : Nat := 0) : Option Char :=
  (cur.s.drop (cur.i + k)).head?

/-- The slice `cur.s[cur.i:cur.i+2]` used by the `'(<'` lookahead. -/
def Cursor.next2 (cur : Cursor) : List Char :=
  (cur.s.drop cur.i).take 2

/-- Advance the cursor by `k` characters (`cur.i += k`). -/
def Cursor.adv (cur : Cursor) (k : Nat := 1) : Cursor :=
  { cur with i := cur.i + k }

/-- `Cursor.eat`. -/
def Cursor.eat (cur : Cursor) (c : Char) : Except PyErr Cursor :=
  if cur.peek = some c then .ok (cur.adv 1)
  else .error (.nosj (.expectedChar c))

/-- `Cursor.at_end`. -/
def Cursor.atEnd (cur : Cursor) : Bool :=
  cur.s.length ≤ cur.i

/-- The hexadecimal digits accepted by `_decode_percent_bytes`
(`"0123456789abcdefABCDEF"`). -/
def isHexDigit (c : Char) : Bool :=
  ('0' ≤ c && c ≤ '9') || ('a' ≤ c && c ≤ 'f') || ('A' ≤ c && c ≤ 'F')

/-- Value of one hexadecimal digit, as computed by `int(-, 16)`. -/
def hexDigitVal (c : Char) : Nat :=
  if '0' ≤ c && c ≤ '9' then c.toNat - 48
  else if 'a' ≤ c && c ≤ 'f' then c.toNat - 87
  else c.toNat - 55

/-- `_decode_percent_bytes`, on the raw token.  Returns the byte list of the
Python `bytearray` together with the `had` flag; the caller turns the bytes
into the latin-1 string.  A `%` not followed by two hex digits raises
`NosjError`; a raw character with code point above 255 makes
`bytearray.append(ord(ch))` raise `ValueError`. -/
def decodePercentBytes : List Char → Except PyErr (List Nat × Bool)
  | [] => .ok ([], false)
  | c :: rest =>
    if c = '%' then
      match rest with
      | c1 :: c2 :: rest2 =>
        if isHexDigit c1 && isHexDigit c2 then
          match decodePercentBytes rest2 with
          | .ok (bs, _) => .ok ((16 * hexDigitVal c1 + hexDigitVal c2) :: bs, true)
          | .error e => .error e
        else .error (.nosj .invalidPercent)
      | _ => .error (.nosj .invalidPercent)
    else
      if c.toNat ≤ 255 then
        match decodePercentBytes rest with
        | .ok (bs, had) => .ok (c.toNat :: bs, had)
        | .error e => .error e
      else .error .valueError

/-- The character class of `SIMPLE_STR_RE`: `[A-Za-z0-9 \t]`. -/
def isSimpleChar (c : Char) : Bool :=
  ('A' ≤ c && c ≤ 'Z') || ('a' ≤ c && c ≤ 'z') || ('0' ≤ c && c ≤ '9')
    || c = ' ' || c = '\t'

/-- `SIMPLE_STR_RE.fullmatch`: `^([A-Za-z0-9 \t]+)s$`.  On a match, returns
`group(1)`, i.e. everything before the trailing `s`. -/
def simpleStrMatch (t : List Char) : Option (List Char) :=
  if 2 ≤ t.length ∧ t.getLast? = some 's' ∧ t.dropLast.all isSimpleChar
  then some t.dropLast else none

/-- `int(token, 2)` for a `[01]+` token. -/
def binToNat (token : List Char) : Nat :=
  token.foldl (fun a c => 2 * a + (if c = '1' then 1 else 0)) 0

/-- The numeric decoding of `_parse_value` lines 145-152: unsigned binary
value, minus `2^nbits` when the leading bit is `1`. -/
def numVal (token : List Char) : Int :=
  let v : Int := binToNat token
  if token.head? = some '1' then v - 2 ^ token.length else v

/-- Value types returned by `_parse_value` (`'num'`, `'string'`, `'map'`). -/
inductive ValType where
  | num
  | str
  | map
  deriving Repr, DecidableEq

/-- The token classification of `_parse_value` lines 131-159, factored out
over the scanned token: percent branch, whitespace branch, `BIN_RE` branch,
then the bare simple-string branch. -/
def classifyToken (token : List Char) : Except PyErr (ValType × List Char) :=
  if '%' ∈ token then
    match decodePercentBytes token with
    | .ok (bs, had) =>
      if had then .ok (.str, bs.map Char.ofNat)
      else .error (.nosj .complexNoPercent)
    | .error e => .error e
  else if ∃ c ∈ token, c = ' ' ∨ c = '\t' then
    match simpleStrMatch token with
    | some w => .ok (.str, w)
    | none => .error (.nosj .whitespaceOutsideSimple)
  else if token ≠ [] ∧ ∀ c ∈ token, c = '0' ∨ c = '1' then
    .ok (.num, (toString (numVal token)).toList)
  else
    match simpleStrMatch token with
    | some w => .ok (.str, w)
    | none => .error (.nosj .unrecognizedToken)

/-- Structural characters rejected inside a value token. -/
def isStructural (c : Char) : Bool :=
  c = '(' || c = ')' || c = '<' || c = ':'

/-- The token scan of `_parse_value` lines 121-129, on the text after the
cursor: consume until `,`, `>` or end of input; any `(`, `)`, `<`, `:`
is a structural error. -/
def scanTok : List Char → Except PyErr (List Char)
  | [] => .ok []
  | c :: rest =>
    if c = ',' ∨ c = '>' then .ok []
    else if isStructural c then .error (.nosj .structuralChar)
    else
      match scanTok rest with
      | .ok t => .ok (c :: t)
      | .error e => .error e

/-- `_parse_value`: nested-map lookahead, then token scan and
classification.  Returns the type, the value string and the advanced
cursor (the cursor is left on the delimiter). -/
def parseValue (cur : Cursor) : Except PyErr (ValType × List Char × Cursor) :=
  if cur.peek = some '(' ∧ cur.next2 = ['(', '<'] then .ok (.map, [], cur)
  else
    match scanTok (cur.s.drop cur.i) with
    | .error e => .error e
    | .ok token =>
      match classifyToken token with
      | .error e => .error e
      | .ok (t, v) => .ok (t, v, cur.adv token.length)

/-- Python `str.islower()` on one character, restricted to ASCII and
latin-1 (the full Unicode lowercase predicate is not modelled; no claim
depends on characters above U+00FF here). -/
def pyIsLower (c : Char) : Bool :=
  ('a' ≤ c && c ≤ 'z') || c.toNat = 0xAA || c.toNat = 0xB5 || c.toNat = 0xBA
    || (0xDF ≤ c.toNat && c.toNat ≤ 0xF6) || (0xF8 ≤ c.toNat && c.toNat ≤ 0xFF)

/-- `KEY_RE.fullmatch`: `^[a-z]+$`. -/
def keyREfullmatch (k : List Char) : Bool :=
  !k.isEmpty && k.all (fun c => 'a' ≤ c && c ≤ 'z')

/-- `_parse_key`: maximal run of `islower()` characters, then the
empty-key check and the `KEY_RE` check. -/
def parseKey (cur : Cursor) : Except PyErr (List Char × Cursor) :=
  let k := (cur.s.drop cur.i).takeWhile pyIsLower
  if k = [] then .error (.nosj .missingKey)
  else if keyREfullmatch k then .ok (k, cur.adv k.length)
  else .error (.nosj (.invalidKey k))

/-- Output line `"begin-map"`. -/
def beginMap : List Char := ['b', 'e', 'g', 'i', 'n', '-', 'm', 'a', 'p']

/-- Output line `"end-map"`. -/
def endMap : List Char := ['e', 'n', 'd', '-', 'm', 'a', 'p']

/-- Separator-and-value tail of a `f"{key} -- map -- "` line. -/
def mapTail : List Char := [' ', '-', '-', ' ', 'm', 'a', 'p', ' ', '-', '-', ' ']

/-- Separator of a `f"{key} -- num -- {sval}"` line. -/
def numSep : List Char := [' ', '-', '-', ' ', 'n', 'u', 'm', ' ', '-', '-', ' ']

/-- Separator of a `f"{key} -- string -- {sval}"` line. -/
def strSep : List Char := [' ', '-', '-', ' ', 's', 't', 'r', 'i', 'n', 'g', ' ', '-', '-', ' ']

/-- `_parse_map_body`: the `while True` loop over `key:value` pairs of one
map frame.  `seen` is the `seen_keys` set, `first` the first-iteration
flag; the returned list is the sequence of lines this call appended to
`emit`.  `fuel` decreases on every loop iteration and on every descent
into a nested map. -/
def parseMapBody (fuel : Nat) (cur : Cursor) (seen : List (List Char))
    (first : Bool) : Except PyErr (Cursor × List (List Char)) :=
  match fuel with
  | 0 => .error .fuelExhausted
  | fuel + 1 =>
    if cur.peek = some '>' then .ok (cur.adv 1, [])
    else
      let step : Except PyErr Cursor :=
        if first then .ok cur
        else if cur.peek = some ',' then .ok (cur.adv 1)
        else .error (.nosj .expectedComma)
      match step with
      | .error e => .error e
      | .ok cur =>
        match parseKey cur with
        | .error e => .error e
        | .ok (key, cur) =>
          if key ∈ seen then .error (.nosj .duplicateKey)
          else
            let seen := key :: seen
            if cur.peek = some ':' then
              let cur := cur.adv 1
              if cur.peek = some '(' ∧ cur.next2 = ['(', '<'] then
                match parseMapBody fuel (cur.adv 2) [] true with
                | .error e => .error e
                | .ok (cur, sub) =>
                  if cur.peek = some ')' then
                    match parseMapBody fuel (cur.adv 1) seen false with
                    | .error e => .error e
                    | .ok (cur2, rest) =>
                      .ok (cur2, (key ++ mapTail) :: beginMap :: (sub ++ endMap :: rest))
                  else .error (.nosj .expectedCloseParen)
              else
                match parseValue cur with
                | .error e => .error e
                | .ok (t, sval, cur) =>
                  match t with
                  | .num =>
                    match parseMapBody fuel cur seen false with
                    | .error e => .error e
                    | .ok (cur2, rest) => .ok (cur2, (key ++ numSep ++ sval) :: rest)
                  | .str =>
                    match parseMapBody fuel cur seen false with
                    | .error e => .error e
                    | .ok (cur2, rest) => .ok (cur2, (key ++ strSep ++ sval) :: rest)
                  | .map => .error (.nosj .internalError)
            else .error (.nosj .expectedColon)

/-- Python `str.strip()` whitespace, restricted to the ASCII range
(code points 9-13, 28-31 and 32; the Unicode space characters above
U+0080 that Python also strips are not modelled). -/
def isPyWs (c : Char) : Bool :=
  c = ' ' || (9 ≤ c.toNat && c.toNat ≤ 13) || (28 ≤ c.toNat && c.toNat ≤ 31)

/-- `str.strip()`. -/
def pyStrip (s : List Char) : List Char :=
  ((s.dropWhile isPyWs).reverse.dropWhile isPyWs).reverse

/-- `parse_marshalled_map`: strip, require the opening `(<`, parse the
body, require the closing `)` and end of input.  On success the result is
the full emitted line list `begin-map :: body ++ [end-map]`. -/
def parseMarshalledMap (input : List Char) : Except PyErr (List (List Char)) :=
  let s := pyStrip input
  let cur : Cursor := ⟨s, 0⟩
  if cur.next2 = ['(', '<'] then
    match parseMapBody (s.length + 1) (cur.adv 2) [] true with
    | .error e => .error e
    | .ok (cur, body) =>
      if cur.peek = some ')' then
        if (cur.adv 1).atEnd then .ok (beginMap :: body ++ [endMap])
        else .error (.nosj .trailingChars)
      else .error (.nosj .mapMustEnd)
  else .error (.nosj .mapMustStart)

/-- The CLI `main` after the input file has been read (file handling is an
external collaborator): on success, each output line is written to stdout
followed by a line feed and the status is 0; on a caught exception,
nothing is written to stdout, the single line `ERROR -- <message>`
followed by a line feed is written to stderr, and the status is 66.
Channels are modelled as the lists of lines written (each written line is
LF-terminated by `_writeline_stdout` / `_writeline_stderr_error`).  Note
`parse_marshalled_map` returns its complete list before `main` prints
anything, so a failed parse writes no partial output. -/
def runMain (data : List Char) : Nat × List (List Char) × List (List Char) :=
  match parseMarshalledMap data with
  | .ok lines => (0, lines, [])
  | .error e => (66, [], ["ERROR -- ".toList ++ e.msg])

/-! ### Specification-side analyses of the output line list -/

/-- Most-significant-bit-first value of a bitstring (specification-side
definition of "interpret as unsigned binary", independent of the `foldl`
the code uses). -/
def bitsVal : List Char → Nat
  | [] => 0
  | c :: r => (if c = '1' then 1 else 0) * 2 ^ r.length + bitsVal r

/-- Declarative percent-decoding relation, following the spec: a `%`
must be followed by exactly two hexadecimal digits and denotes that byte;
any other character stands for its own code point. -/
inductive PD : List Char → List Nat → Prop where
  | nil : PD [] []
  | esc {c1 c2 : Char} {rest : List Char} {bs : List Nat} :
      isHexDigit c1 = true → isHexDigit c2 = true → PD rest bs →
      PD ('%' :: c1 :: c2 :: rest) ((16 * hexDigitVal c1 + hexDigitVal c2) :: bs)
  | raw {c : Char} {rest : List Char} {bs : List Nat} :
      c ≠ '%' → PD rest bs → PD (c :: rest) (c.toNat :: bs)

/-- Stack-based balance check over an output line list: `begin-map`
pushes, `end-map` pops (failing if the stack is empty); returns the final
depth. -/
def balAux : Nat → List (List Char) → Option Nat
  | d, [] => some d
  | d, l :: ls =>
    if l = beginMap then balAux (d + 1) ls
    else if l = endMap then
      match d with
      | 0 => none
      | e + 1 => balAux e ls
    else balAux d ls

/-- The key of a `<key> -- ... -- ...` output line (keys never contain a
space, so everything before the first space is the key). -/
def keyOf (l : List Char) : List Char :=
  l.takeWhile (fun c => !(c = ' '))

/-- Whether an output line is a `<key> -- map -- ` line. -/
def isMapLine (l : List Char) : Bool :=
  l.dropWhile (fun c => !(c = ' ')) = mapTail

/-- Every `<key> -- map -- ` line is immediately followed by a
`begin-map` line. -/
def mapsFollowedBy : List (List Char) → Bool
  | [] => true
  | l :: ls =>
    (if isMapLine l then
      match ls.head? with
      | some b => b = beginMap
      | none => false
     else true)
    && mapsFollowedBy ls

/-- One step of the frame-recovery stack machine over output lines:
`begin-map` pushes an empty frame, `end-map` pops the top frame into the
list of completed frames, and a key line adds its key to the top frame. -/
def stepLine (st : List (List (List Char)) × List (List (List Char)))
    (l : List Char) : List (List (List Char)) × List (List (List Char)) :=
  if l = beginMap then ([] :: st.1, st.2)
  else if l = endMap then
    match st.1 with
    | f :: rest => (rest, st.2 ++ [f])
    | [] => ([], st.2)
  else
    match st.1 with
    | f :: rest => ((f ++ [keyOf l]) :: rest, st.2)
    | [] => ([], st.2)

/-- Run the frame-recovery machine over a line list. -/
def runStack (lines : List (List Char))
    (st : List (List (List Char)) × List (List (List Char))) :
    List (List (List Char)) × List (List (List Char)) :=
  lines.foldl stepLine st

/-- All map frames (lists of keys, one per nesting frame) recovered from
an output line list. -/
def framesOf (lines : List (List Char)) : List (List (List Char)) :=
  (runStack lines ([], [])).2 ++ (runStack lines ([], [])).1

/-! ### Helper lemmas -/

theorem foldl_bin (t : List Char) (a : Nat) :
    t.foldl (fun a c => 2 * a + (if c = '1' then 1 else 0)) a
      = a * 2 ^ t.length + bitsVal t := by
  induction t generalizing a with
  | nil => simp [bitsVal]
  | cons c r ih =>
    simp only [List.foldl_cons, ih, bitsVal, List.length_cons, pow_succ]
    ring

theorem binToNat_eq_bitsVal (t : List Char) : binToNat t = bitsVal t := by
  unfold binToNat
  rw [foldl_bin]
  simp

theorem dropLast_app (w : List Char) (a : Char) : (w ++ [a]).dropLast = w := by
  simp

theorem getLast?_app {α : Type} (w : List α) (a : α) : (w ++ [a]).getLast? = some a := by
  simp

theorem simpleStrMatch_eq_some {t w : List Char} :
    simpleStrMatch t = some w ↔
      t = w ++ ['s'] ∧ w ≠ [] ∧ ∀ c ∈ w, isSimpleChar c = true := by
  constructor
  · intro h
    unfold simpleStrMatch at h
    split at h
    case isTrue hc =>
      obtain ⟨hlen, hlast, hall⟩ := hc
      injection h with h
      subst h
      have hne : t ≠ [] := by
        intro he
        rw [he] at hlen
        simp at hlen
      have hdecomp : t.dropLast ++ [t.getLast hne] = t := List.dropLast_append_getLast hne
      have hlast' : t.getLast hne = 's' := by
        rw [List.getLast?_eq_getLast t hne] at hlast
        injection hlast
      refine ⟨by rw [← hlast']; exact hdecomp.symm, ?_, ?_⟩
      · intro he
        have := congrArg List.length hdecomp
        rw [he] at this
        simp at this
        omega
      · intro c hc
        exact List.all_eq_true.mp hall c hc
    case isFalse => cases h
  · rintro ⟨rfl, h2, h3⟩
    have hcond : 2 ≤ (w ++ ['s']).length ∧ (w ++ ['s']).getLast? = some 's' ∧
        (w ++ ['s']).dropLast.all isSimpleChar = true := by
      refine ⟨?_, getLast?_app w 's', ?_⟩
      · have hw : 1 ≤ w.length := List.length_pos.mpr h2
        simp
        omega
      · rw [dropLast_app]
        exact List.all_eq_true.mpr h3
    unfold simpleStrMatch
    rw [if_pos hcond, dropLast_app]

theorem parseKey_ok {cur : Cursor} {k : List Char} {cur' : Cursor}
    (h : parseKey cur = .ok (k, cur')) :
    k ≠ [] ∧ keyREfullmatch k = true := by
  simp only [parseKey] at h
  split at h
  · cases h
  · rename_i hne
    split at h
    · rename_i hre
      injection h with h1
      injection h1 with h2 h3
      subst h2
      exact ⟨hne, hre⟩
    · cases h

theorem classifyToken_ok_type {token : List Char} {t : ValType} {v : List Char}
    (h : classifyToken token = .ok (t, v)) : t = .num ∨ t = .str := by
  unfold classifyToken at h
  split at h
  · split at h
    · split at h
      · injection h with h1
        injection h1 with h2 _
        right
        exact h2.symm
      · cases h
    · cases h
  · split at h
    · split at h
      · injection h with h1
        injection h1 with h2 _
        right
        exact h2.symm
      · cases h
    · split at h
      · injection h with h1
        injection h1 with h2 _
        left
        exact h2.symm
      · split at h
        · injection h with h1
          injection h1 with h2 _
          right
          exact h2.symm
        · cases h

theorem decode_ok_PD_aux : ∀ (n : Nat) (t : List Char), t.length ≤ n →
    ∀ (bs : List Nat) (had : Bool),
      decodePercentBytes t = .ok (bs, had) → PD t bs := by
  intro n
  induction n with
  | zero =>
    intro t ht bs had h
    have he : t = [] := List.length_eq_zero.mp (Nat.le_zero.mp ht)
    subst he
    unfold decodePercentBytes at h
    injection h with h1
    injection h1 with h2 h3
    subst h2
    exact PD.nil
  | succ n ih =>
    intro t ht bs had h
    cases t with
    | nil =>
      unfold decodePercentBytes at h
      injection h with h1
      injection h1 with h2 h3
      subst h2
      exact PD.nil
    | cons c rest =>
      unfold decodePercentBytes at h
      by_cases hc : c = '%'
      · rw [if_pos hc] at h
        subst hc
        cases rest with
        | nil => simp at h
        | cons c1 rest1 =>
          cases rest1 with
          | nil => simp at h
          | cons c2 rest2 =>
            dsimp only at h
            split at h
            · rename_i hhex
              rw [Bool.and_eq_true] at hhex
              cases hrec : decodePercentBytes rest2 with
              | ok p =>
                obtain ⟨bs2, had2⟩ := p
                rw [hrec] at h
                dsimp only at h
                injection h with h1
                injection h1 with h2 h3
                subst h2
                exact PD.esc hhex.1 hhex.2
                  (ih rest2 (by simp at ht; omega) bs2 had2 hrec)
              | error e =>
                rw [hrec] at h
                simp at h
            · simp at h
      · rw [if_neg hc] at h
        split at h
        · cases hrec : decodePercentBytes rest with
          | ok p =>
            obtain ⟨bs2, had2⟩ := p
            rw [hrec] at h
            dsimp only at h
            injection h with h1
            injection h1 with h2 h3
            subst h2
            exact PD.raw hc (ih rest (by simp at ht; omega) bs2 had2 hrec)
          | error e =>
            rw [hrec] at h
            simp at h
        · simp at h

theorem decode_ok_PD {t : List Char} {bs : List Nat} {had : Bool}
    (h : decodePercentBytes t = .ok (bs, had)) : PD t bs :=
  decode_ok_PD_aux t.length t le_rfl bs had h

theorem decode_err_aux : ∀ (n : Nat) (t : List Char), t.length ≤ n →
    (∀ c ∈ t, c.toNat ≤ 255) → ∀ e, decodePercentBytes t = .error e →
      e = .nosj .invalidPercent ∧ ∀ bs, ¬ PD t bs := by
  intro n
  induction n with
  | zero =>
    intro t ht hle e h
    have he : t = [] := List.length_eq_zero.mp (Nat.le_zero.mp ht)
    subst he
    unfold decodePercentBytes at h
    cases h
  | succ n ih =>
    intro t ht hle e h
    cases t with
    | nil =>
      unfold decodePercentBytes at h
      cases h
    | cons c rest =>
      unfold decodePercentBytes at h
      by_cases hc : c = '%'
      · rw [if_pos hc] at h
        subst hc
        cases rest with
        | nil =>
          dsimp only at h
          refine ⟨by injection h with h1; exact h1.symm, ?_⟩
          intro bs hpd
          cases hpd with
          | raw hne _ => exact hne rfl
        | cons c1 rest1 =>
          cases rest1 with
          | nil =>
            dsimp only at h
            refine ⟨by injection h with h1; exact h1.symm, ?_⟩
            intro bs hpd
            cases hpd with
            | raw hne _ => exact hne rfl
          | cons c2 rest2 =>
            dsimp only at h
            split at h
            · rename_i hhex
              cases hrec : decodePercentBytes rest2 with
              | ok p =>
                rw [hrec] at h
                obtain ⟨bs2, had2⟩ := p
                simp at h
              | error e2 =>
                rw [hrec] at h
                dsimp only at h
                injection h with h1
                subst h1
                have hle2 : ∀ ch ∈ rest2, ch.toNat ≤ 255 := by
                  intro ch hch
                  exact hle ch (by simp [hch])
                obtain ⟨he, hnpd⟩ := ih rest2 (by simp at ht; omega) hle2 _ hrec
                refine ⟨he, ?_⟩
                intro bs hpd
                cases hpd with
                | esc _ _ hrest => exact hnpd _ hrest
                | raw hne _ => exact hne rfl
            · rename_i hhex
              refine ⟨by injection h with h1; exact h1.symm, ?_⟩
              intro bs hpd
              cases hpd with
              | esc h1 h2 _ =>
                apply hhex
                rw [Bool.and_eq_true]
                exact ⟨h1, h2⟩
              | raw hne _ => exact hne rfl
      · rw [if_neg hc] at h
        have hc255 : c.toNat ≤ 255 := hle c (by simp)
        rw [if_pos hc255] at h
        cases hrec : decodePercentBytes rest with
        | ok p =>
          rw [hrec] at h
          obtain ⟨bs2, had2⟩ := p
          simp at h
        | error e2 =>
          rw [hrec] at h
          dsimp only at h
          injection h with h1
          subst h1
          have hle2 : ∀ ch ∈ rest, ch.toNat ≤ 255 := by
            intro ch hch
            exact hle ch (by simp [hch])
          obtain ⟨he, hnpd⟩ := ih rest (by simp at ht; omega) hle2 _ hrec
          refine ⟨he, ?_⟩
          intro bs hpd
          cases hpd with
          | esc _ _ _ => exact hc rfl
          | raw _ hrest => exact hnpd _ hrest

theorem decode_err {t : List Char} {e : PyErr}
    (hle : ∀ c ∈ t, c.toNat ≤ 255) (h : decodePercentBytes t = .error e) :
    e = .nosj .invalidPercent ∧ ∀ bs, ¬ PD t bs :=
  decode_err_aux t.length t le_rfl hle e h

theorem decode_had_aux : ∀ (n : Nat) (t : List Char), t.length ≤ n →
    ∀ (bs : List Nat) (had : Bool),
      decodePercentBytes t = .ok (bs, had) → '%' ∈ t → had = true := by
  intro n
  induction n with
  | zero =>
    intro t ht bs had h hm
    have he : t = [] := List.length_eq_zero.mp (Nat.le_zero.mp ht)
    subst he
    cases hm
  | succ n ih =>
    intro t ht bs had h hm
    cases t with
    | nil => cases hm
    | cons c rest =>
      unfold decodePercentBytes at h
      by_cases hc : c = '%'
      · rw [if_pos hc] at h
        cases rest with
        | nil => simp at h
        | cons c1 rest1 =>
          cases rest1 with
          | nil => simp at h
          | cons c2 rest2 =>
            dsimp only at h
            split at h
            · cases hrec : decodePercentBytes rest2 with
              | ok p =>
                obtain ⟨bs2, had2⟩ := p
                rw [hrec] at h
                dsimp only at h
                injection h with h1
                injection h1 with h2 h3
                exact h3.symm
              | error e =>
                rw [hrec] at h
                simp at h
            · simp at h
      · rw [if_neg hc] at h
        split at h
        · cases hrec : decodePercentBytes rest with
          | ok p =>
            obtain ⟨bs2, had2⟩ := p
            rw [hrec] at h
            dsimp only at h
            injection h with h1
            injection h1 with h2 h3
            have hmr : '%' ∈ rest := by
              cases hm with
              | head => exact absurd rfl hc
              | tail _ hmr => exact hmr
            rw [← h3]
            exact ih rest (by simp at ht; omega) bs2 had2 hrec hmr
          | error e =>
            rw [hrec] at h
            simp at h
        · simp at h

theorem decode_had {t : List Char} {bs : List Nat} {had : Bool}
    (h : decodePercentBytes t = .ok (bs, had)) (hm : '%' ∈ t) : had = true :=
  decode_had_aux t.length t le_rfl bs had h hm

theorem key_chars_no_space {k : List Char} (h : keyREfullmatch k = true) :
    ∀ c ∈ k, ¬(c = ' ') := by
  unfold keyREfullmatch at h
  rw [Bool.and_eq_true] at h
  obtain ⟨-, h2⟩ := h
  intro c hc he
  have hcz := List.all_eq_true.mp h2 c hc
  subst he
  rw [Bool.and_eq_true] at hcz
  exact absurd hcz.1 (by decide)

theorem midline_ne_begin (k r : List Char) : k ++ ' ' :: r ≠ beginMap := by
  intro h
  have hm : (' ' : Char) ∈ k ++ ' ' :: r := by simp
  rw [h] at hm
  exact absurd hm (by decide)

theorem midline_ne_end (k r : List Char) : k ++ ' ' :: r ≠ endMap := by
  intro h
  have hm : (' ' : Char) ∈ k ++ ' ' :: r := by simp
  rw [h] at hm
  exact absurd hm (by decide)

theorem keyOf_line (k r : List Char) :
    (∀ c ∈ k, ¬(c = ' ')) → keyOf (k ++ ' ' :: r) = k := by
  induction k with
  | nil =>
    intro
    simp [keyOf]
  | cons c k ih =>
    intro hk
    have hc : ¬(c = ' ') := hk c (by simp)
    simp only [keyOf, List.cons_append, List.takeWhile_cons] at *
    simp [hc, ih (fun c2 hc2 => hk c2 (by simp [hc2]))]

theorem dropWhile_line (k r : List Char) :
    (∀ c ∈ k, ¬(c = ' ')) →
    (k ++ ' ' :: r).dropWhile (fun c => !(c = ' ')) = ' ' :: r := by
  induction k with
  | nil =>
    intro
    simp [List.dropWhile]
  | cons c k ih =>
    intro hk
    have hc : ¬(c = ' ') := hk c (by simp)
    simp only [List.cons_append, List.dropWhile_cons]
    simp [hc, ih (fun c2 hc2 => hk c2 (by simp [hc2]))]

theorem numline_shape (k sval : List Char) :
    k ++ numSep ++ sval
      = k ++ ' ' :: (['-', '-', ' ', 'n', 'u', 'm', ' ', '-', '-', ' '] ++ sval) := by
  rw [List.append_assoc]
  rfl

theorem strline_shape (k sval : List Char) :
    k ++ strSep ++ sval
      = k ++ ' ' :: (['-', '-', ' ', 's', 't', 'r', 'i', 'n', 'g', ' ', '-', '-', ' '] ++ sval) := by
  rw [List.append_assoc]
  rfl

theorem mapline_shape (k : List Char) :
    k ++ mapTail = k ++ ' ' :: ['-', '-', ' ', 'm', 'a', 'p', ' ', '-', '-', ' '] := rfl

theorem numline_not_mapline (k sval : List Char) (hk : ∀ c ∈ k, ¬(c = ' ')) :
    isMapLine (k ++ numSep ++ sval) = false := by
  unfold isMapLine
  rw [numline_shape, dropWhile_line _ _ hk]
  apply decide_eq_false
  intro h
  simp [mapTail] at h

theorem strline_not_mapline (k sval : List Char) (hk : ∀ c ∈ k, ¬(c = ' ')) :
    isMapLine (k ++ strSep ++ sval) = false := by
  unfold isMapLine
  rw [strline_shape, dropWhile_line _ _ hk]
  apply decide_eq_false
  intro h
  simp [mapTail] at h

theorem mapline_is_mapline (k : List Char) (hk : ∀ c ∈ k, ¬(c = ' ')) :
    isMapLine (k ++ mapTail) = true := by
  unfold isMapLine
  rw [mapline_shape, dropWhile_line _ _ hk]
  decide

theorem balAux_cons (d : Nat) (l : List Char) (ls : List (List Char)) :
    balAux d (l :: ls)
      = if l = beginMap then balAux (d + 1) ls
        else if l = endMap then
          (match d with
           | 0 => none
           | e + 1 => balAux e ls)
        else balAux d ls := rfl

theorem balAux_append (a b : List (List Char)) : ∀ d e, balAux d a = some e →
    balAux d (a ++ b) = balAux e b := by
  induction a with
  | nil =>
    intro d e h
    injection h with h
    subst h
    rfl
  | cons l ls ih =>
    intro d e h
    rw [List.cons_append, balAux_cons] at *
    by_cases h1 : l = beginMap
    · rw [if_pos h1] at h ⊢
      exact ih _ _ h
    · rw [if_neg h1] at h ⊢
      by_cases h2 : l = endMap
      · rw [if_pos h2] at h ⊢
        cases d with
        | zero => cases h
        | succ d2 => exact ih _ _ h
      · rw [if_neg h2] at h ⊢
        exact ih _ _ h

theorem balAux_count (l : List (List Char)) : ∀ d e, balAux d l = some e →
    d + l.count beginMap = e + l.count endMap := by
  induction l with
  | nil =>
    intro d e h
    injection h with h
  | cons x ls ih =>
    intro d e h
    rw [balAux_cons] at h
    by_cases h1 : x = beginMap
    · rw [if_pos h1] at h
      subst h1
      have hc := ih _ _ h
      rw [List.count_cons_self,
        List.count_cons_of_ne (by decide : (endMap : List Char) ≠ beginMap)]
      omega
    · rw [if_neg h1] at h
      by_cases h2 : x = endMap
      · rw [if_pos h2] at h
        subst h2
        cases d with
        | zero => cases h
        | succ d2 =>
          have hc := ih _ _ h
          rw [List.count_cons_self,
            List.count_cons_of_ne (by decide : (beginMap : List Char) ≠ endMap)]
          omega
      · rw [if_neg h2] at h
        have hc := ih _ _ h
        rw [List.count_cons_of_ne (Ne.symm h1), List.count_cons_of_ne (Ne.symm h2)]
        omega

theorem mf_cons_not_mapline {l : List Char} (hl : isMapLine l = false)
    (ls : List (List Char)) :
    mapsFollowedBy (l :: ls) = mapsFollowedBy ls := by
  simp only [mapsFollowedBy, hl]
  simp

theorem body_struct : ∀ (fuel : Nat) (cur : Cursor) (seen : List (List Char))
    (first : Bool) (cur' : Cursor) (delta : List (List Char)),
    parseMapBody fuel cur seen first = .ok (cur', delta) →
    (∀ d, balAux d delta = some d) ∧
    (∀ tl, mapsFollowedBy (delta ++ tl) = mapsFollowedBy tl) := by
  intro fuel
  induction fuel with
  | zero =>
    intro cur seen first cur' delta h
    simp only [parseMapBody] at h
    cases h
  | succ fuel ih =>
    intro cur seen first cur' delta h
    simp only [parseMapBody] at h
    split at h
    · -- '>' branch
      injection h with h1
      injection h1 with h2 h3
      subst h3
      exact ⟨fun d => rfl, fun tl => rfl⟩
    · -- comma step
      split at h
      · cases h
      · -- parseKey
        split at h
        · cases h
        · rename_i key cur2 hkey
          split at h
          · cases h
          · -- colon check
            split at h
            · -- nested or scalar
              split at h
              · -- nested map
                split at h
                · cases h
                · rename_i curA sub hsub
                  split at h
                  · -- close paren ok, loop rest
                    split at h
                    · cases h
                    · rename_i curB rest hrest
                      injection h with h1
                      injection h1 with h2 h3
                      subst h3
                      obtain ⟨hk1, hk2⟩ := parseKey_ok hkey
                      have hknsp := key_chars_no_space hk2
                      obtain ⟨hsb, hsm⟩ := ih _ _ _ _ _ hsub
                      obtain ⟨hrb, hrm⟩ := ih _ _ _ _ _ hrest
                      constructor
                      · intro d
                        rw [balAux_cons,
                          if_neg (by rw [mapline_shape]; exact midline_ne_begin _ _),
                          if_neg (by rw [mapline_shape]; exact midline_ne_end _ _),
                          balAux_cons, if_pos rfl,
                          balAux_append _ _ _ _ (hsb (d + 1)),
                          balAux_cons,
                          if_neg (by decide : ¬((endMap : List Char) = beginMap)),
                          if_pos rfl]
                        exact hrb d
                      · intro tl
                        have e1 : mapsFollowedBy (endMap :: (rest ++ tl))
                            = mapsFollowedBy tl := by
                          rw [mf_cons_not_mapline (by decide), hrm tl]
                        have e2 : mapsFollowedBy (sub ++ endMap :: (rest ++ tl))
                            = mapsFollowedBy tl := by
                          rw [hsm (endMap :: (rest ++ tl)), e1]
                        simp only [List.cons_append]
                        rw [List.append_assoc, List.cons_append]
                        simp only [mapsFollowedBy, List.head?_cons]
                        rw [mapline_is_mapline key hknsp,
                          show isMapLine beginMap = false from by decide, e2]
                        simp
                  · cases h
              · -- scalar value
                split at h
                · cases h
                · rename_i t sval curC hval
                  split at h
                  · -- num
                    split at h
                    · cases h
                    · rename_i curB rest hrest
                      injection h with h1
                      injection h1 with h2 h3
                      subst h3
                      obtain ⟨hk1, hk2⟩ := parseKey_ok hkey
                      have hknsp := key_chars_no_space hk2
                      obtain ⟨hrb, hrm⟩ := ih _ _ _ _ _ hrest
                      constructor
                      · intro d
                        rw [balAux_cons,
                          if_neg (by rw [numline_shape]; exact midline_ne_begin _ _),
                          if_neg (by rw [numline_shape]; exact midline_ne_end _ _)]
                        exact hrb d
                      · intro tl
                        rw [List.cons_append,
                          mf_cons_not_mapline (numline_not_mapline key sval hknsp),
                          hrm tl]
                  · -- str
                    split at h
                    · cases h
                    · rename_i curB rest hrest
                      injection h with h1
                      injection h1 with h2 h3
                      subst h3
                      obtain ⟨hk1, hk2⟩ := parseKey_ok hkey
                      have hknsp := key_chars_no_space hk2
                      obtain ⟨hrb, hrm⟩ := ih _ _ _ _ _ hrest
                      constructor
                      · intro d
                        rw [balAux_cons,
                          if_neg (by rw [strline_shape]; exact midline_ne_begin _ _),
                          if_neg (by rw [strline_shape]; exact midline_ne_end _ _)]
                        exact hrb d
                      · intro tl
                        rw [List.cons_append,
                          mf_cons_not_mapline (strline_not_mapline key sval hknsp),
                          hrm tl]
                  · -- map: internal error branch
                    cases h
            · cases h

theorem body_frames : ∀ (fuel : Nat) (cur : Cursor) (seen : List (List Char))
    (first : Bool) (cur' : Cursor) (delta : List (List Char)),
    parseMapBody fuel cur seen first = .ok (cur', delta) →
    ∀ (f : List (List Char)) (rst done : List (List (List Char))),
      ∃ newKeys newDone,
        runStack delta (f :: rst, done) = ((f ++ newKeys) :: rst, done ++ newDone) ∧
        (∀ fr ∈ newDone, fr.Nodup) ∧ newKeys.Nodup ∧ (∀ k ∈ newKeys, k ∉ seen) := by
  intro fuel
  induction fuel with
  | zero =>
    intro cur seen first cur' delta h
    simp only [parseMapBody] at h
    cases h
  | succ fuel ih =>
    intro cur seen first cur' delta h
    simp only [parseMapBody] at h
    split at h
    · -- '>' branch
      injection h with h1
      injection h1 with h2 h3
      subst h3
      intro f rst done
      exact ⟨[], [], by simp [runStack], by simp, List.nodup_nil, by simp⟩
    · -- comma step
      split at h
      · cases h
      · -- parseKey
        split at h
        · cases h
        · rename_i key cur2 hkey
          split at h
          · cases h
          · rename_i hdup
            -- colon check
            split at h
            · -- nested or scalar
              split at h
              · -- nested map
                split at h
                · cases h
                · rename_i curA sub hsub
                  split at h
                  · -- close paren ok, loop rest
                    split at h
                    · cases h
                    · rename_i curB rest hrest
                      injection h with h1
                      injection h1 with h2 h3
                      subst h3
                      obtain ⟨hk1, hk2⟩ := parseKey_ok hkey
                      have hknsp := key_chars_no_space hk2
                      intro f rst done
                      obtain ⟨sk, sd, hsubrun, hsdn, hskn, -⟩ :=
                        ih _ _ _ _ _ hsub [] ((f ++ [key]) :: rst) done
                      obtain ⟨nk, nd, hrun, hnd, hnk, hns⟩ :=
                        ih _ _ _ _ _ hrest (f ++ [key]) rst (done ++ sd ++ [[] ++ sk])
                      refine ⟨key :: nk, sd ++ [[] ++ sk] ++ nd, ?_, ?_, ?_, ?_⟩
                      · have hstep1 : stepLine (f :: rst, done) (key ++ mapTail)
                            = ((f ++ [key]) :: rst, done) := by
                          unfold stepLine
                          rw [if_neg (by rw [mapline_shape]; exact midline_ne_begin _ _),
                            if_neg (by rw [mapline_shape]; exact midline_ne_end _ _)]
                          dsimp only
                          rw [mapline_shape, keyOf_line _ _ hknsp]
                        have hstep2 : stepLine ((f ++ [key]) :: rst, done) beginMap
                            = ([] :: (f ++ [key]) :: rst, done) := by
                          unfold stepLine
                          rw [if_pos rfl]
                        have hstep3 : stepLine ((([] : List (List Char)) ++ sk)
                              :: (f ++ [key]) :: rst, done ++ sd) endMap
                            = ((f ++ [key]) :: rst, (done ++ sd) ++ [[] ++ sk]) := by
                          unfold stepLine
                          rw [if_neg (by decide), if_pos rfl]
                        simp only [runStack] at hsubrun hrun ⊢
                        rw [List.foldl_cons, hstep1, List.foldl_cons, hstep2,
                          List.foldl_append, hsubrun, List.foldl_cons, hstep3]
                        rw [show (done ++ sd) ++ [[] ++ sk] = done ++ sd ++ [[] ++ sk]
                          from rfl]
                        rw [hrun]
                        simp [List.append_assoc]
                      · intro fr hfr
                        simp only [List.mem_append] at hfr
                        rcases hfr with (hfr | hfr) | hfr
                        · exact hsdn fr hfr
                        · rcases List.mem_singleton.mp hfr with rfl
                          simpa using hskn
                        · exact hnd fr hfr
                      · exact List.nodup_cons.mpr
                          ⟨fun hkm => (hns key hkm) (List.mem_cons_self _ _), hnk⟩
                      · intro k hk
                        rcases List.mem_cons.mp hk with rfl | hk2
                        · exact hdup
                        · exact fun hs => (hns k hk2) (List.mem_cons_of_mem _ hs)
                  · cases h
              · -- scalar value
                split at h
                · cases h
                · rename_i t sval curC hval
                  split at h
                  · -- num
                    split at h
                    · cases h
                    · rename_i curB rest hrest
                      injection h with h1
                      injection h1 with h2 h3
                      subst h3
                      obtain ⟨hk1, hk2⟩ := parseKey_ok hkey
                      have hknsp := key_chars_no_space hk2
                      intro f rst done
                      obtain ⟨nk, nd, hrun, hnd, hnk, hns⟩ :=
                        ih _ _ _ _ _ hrest (f ++ [key]) rst done
                      refine ⟨key :: nk, nd, ?_, hnd, ?_, ?_⟩
                      · have hstep : stepLine (f :: rst, done) (key ++ numSep ++ sval)
                            = ((f ++ [key]) :: rst, done) := by
                          unfold stepLine
                          rw [if_neg (by rw [numline_shape]; exact midline_ne_begin _ _),
                            if_neg (by rw [numline_shape]; exact midline_ne_end _ _)]
                          dsimp only
                          rw [numline_shape, keyOf_line _ _ hknsp]
                        simp only [runStack] at hrun ⊢
                        rw [List.foldl_cons, hstep, hrun]
                        simp [List.append_assoc]
                      · exact List.nodup_cons.mpr
                          ⟨fun hkm => (hns key hkm) (List.mem_cons_self _ _), hnk⟩
                      · intro k hk
                        rcases List.mem_cons.mp hk with rfl | hk2
                        · exact hdup
                        · exact fun hs => (hns k hk2) (List.mem_cons_of_mem _ hs)
                  · -- str
                    split at h
                    · cases h
                    · rename_i curB rest hrest
                      injection h with h1
                      injection h1 with h2 h3
                      subst h3
                      obtain ⟨hk1, hk2⟩ := parseKey_ok hkey
                      have hknsp := key_chars_no_space hk2
                      intro f rst done
                      obtain ⟨nk, nd, hrun, hnd, hnk, hns⟩ :=
                        ih _ _ _ _ _ hrest (f ++ [key]) rst done
                      refine ⟨key :: nk, nd, ?_, hnd, ?_, ?_⟩
                      · have hstep : stepLine (f :: rst, done) (key ++ strSep ++ sval)
                            = ((f ++ [key]) :: rst, done) := by
                          unfold stepLine
                          rw [if_neg (by rw [strline_shape]; exact midline_ne_begin _ _),
                            if_neg (by rw [strline_shape]; exact midline_ne_end _ _)]
                          dsimp only
                          rw [strline_shape, keyOf_line _ _ hknsp]
                        simp only [runStack] at hrun ⊢
                        rw [List.foldl_cons, hstep, hrun]
                        simp [List.append_assoc]
                      · exact List.nodup_cons.mpr
                          ⟨fun hkm => (hns key hkm) (List.mem_cons_self _ _), hnk⟩
                      · intro k hk
                        rcases List.mem_cons.mp hk with rfl | hk2
                        · exact hdup
                        · exact fun hs => (hns k hk2) (List.mem_cons_of_mem _ hs)
                  · -- map: internal error branch
                    cases h
            · cases h

theorem parse_ok_shape {input : List Char} {lines : List (List Char)}
    (h : parseMarshalledMap input = .ok lines) :
    ∃ cur1 body,
      parseMapBody ((pyStrip input).length + 1) (Cursor.adv ⟨pyStrip input, 0⟩ 2)
          [] true = .ok (cur1, body) ∧
      lines = beginMap :: body ++ [endMap] := by
  simp only [parseMarshalledMap] at h
  split at h
  · split at h
    · cases h
    · rename_i cur1 body hbody
      split at h
      · split at h
        · injection h with h1
          exact ⟨cur1, body, hbody, h1.symm⟩
        · cases h
      · cases h
  · cases h

/-! ### Claim theorems -/

/-- C1: for every token `b` matching `^[01]+$` of length `n`, the scalar
classifier classifies `b` as `num` and decodes it as its unsigned binary
value if the first character is `'0'`, and as the unsigned value minus
`2^n` if the first character is `'1'`. -/
theorem C1_num_twos_complement (b : List Char) (h1 : b ≠ [])
    (h2 : ∀ c ∈ b, c = '0' ∨ c = '1') :
    ∃ v : Int, classifyToken b = .ok (.num, (toString v).toList) ∧
      v = (if b.head? = some '1' then (bitsVal b : Int) - 2 ^ b.length
           else (bitsVal b : Int)) := by
  refine ⟨numVal b, ?_, ?_⟩
  · have hpc : '%' ∉ b := by
      intro hm
      rcases h2 _ hm with h | h
      · exact absurd h (by decide)
      · exact absurd h (by decide)
    have hws : ¬(∃ c ∈ b, c = ' ' ∨ c = '\t') := by
      rintro ⟨c, hc, hcs⟩
      rcases hcs with h' | h' <;>
        (subst h'; rcases h2 _ hc with h | h <;> exact absurd h (by decide))
    unfold classifyToken
    rw [if_neg hpc, if_neg hws, if_pos ⟨h1, h2⟩]
  · simp only [numVal, binToNat_eq_bitsVal]

/-- C1 witness: `"1010"` is classified as a num decoding to `-6`. -/
theorem C1_witness :
    "1010".toList ≠ [] ∧
    ∃ v : Int, classifyToken "1010".toList = .ok (.num, (toString v).toList) ∧
      v = (if "1010".toList.head? = some '1'
           then (bitsVal "1010".toList : Int) - 2 ^ "1010".toList.length
           else (bitsVal "1010".toList : Int)) :=
  ⟨by decide, C1_num_twos_complement "1010".toList (by decide) (by decide)⟩

/-- C2: a token containing at least one `'%'` is classified as a complex
string: scanning left to right, each `'%'` must be followed by exactly two
hexadecimal digits and is replaced by that byte, every other character is
copied as its raw byte value, and the result is the string whose
characters map one-to-one to the byte values; a truncated or non-hex
escape makes classification fail.  (Characters above code point 255 are
excluded here; that case raises `ValueError`, see C10.) -/
theorem C2_percent_complex_string (token : List Char) (hp : '%' ∈ token)
    (hle : ∀ c ∈ token, c.toNat ≤ 255) :
    (∃ bs, PD token bs ∧
        classifyToken token = .ok (.str, bs.map Char.ofNat)) ∨
    ((∀ bs, ¬ PD token bs) ∧
        classifyToken token = .error (.nosj .invalidPercent)) := by
  unfold classifyToken
  rw [if_pos hp]
  cases h : decodePercentBytes token with
  | ok p =>
    obtain ⟨bs, had⟩ := p
    left
    refine ⟨bs, decode_ok_PD h, ?_⟩
    dsimp only
    rw [decode_had h hp]
    simp
  | error e =>
    right
    obtain ⟨he, hnpd⟩ := decode_err hle h
    subst he
    exact ⟨hnpd, rfl⟩

/-- C2 witness: `"ab%2Ccd"` decodes (to `"ab,cd"`, byte for byte). -/
theorem C2_witness :
    (∃ bs, PD "ab%2Ccd".toList bs ∧
        classifyToken "ab%2Ccd".toList = .ok (.str, bs.map Char.ofNat)) ∨
    ((∀ bs, ¬ PD "ab%2Ccd".toList bs) ∧
        classifyToken "ab%2Ccd".toList = .error (.nosj .invalidPercent)) :=
  C2_percent_complex_string "ab%2Ccd".toList (by decide) (by decide)

/-- C3: a token with no `'%'` but containing a space or tab is accepted
iff it matches `^([A-Za-z0-9 \t]+)s$`, in which case it is a string whose
value is everything before the trailing `'s'`; otherwise classification
fails with the whitespace-outside-simple-string error. -/
theorem C3_whitespace_forces_simple_string (t : List Char)
    (hp : '%' ∉ t) (hw : ∃ c ∈ t, c = ' ' ∨ c = '\t') :
    (∀ w, t = w ++ ['s'] → w ≠ [] → (∀ c ∈ w, isSimpleChar c = true) →
        classifyToken t = .ok (.str, w)) ∧
    ((¬ ∃ w, t = w ++ ['s'] ∧ w ≠ [] ∧ ∀ c ∈ w, isSimpleChar c = true) →
        classifyToken t = .error (.nosj .whitespaceOutsideSimple)) := by
  constructor
  · intro w h1 h2 h3
    have hm : simpleStrMatch t = some w := simpleStrMatch_eq_some.mpr ⟨h1, h2, h3⟩
    unfold classifyToken
    rw [if_neg hp, if_pos hw, hm]
  · intro hnone
    have hm : simpleStrMatch t = none := by
      cases hsm : simpleStrMatch t with
      | none => rfl
      | some w => exact absurd ⟨w, simpleStrMatch_eq_some.mp hsm⟩ hnone
    unfold classifyToken
    rw [if_neg hp, if_pos hw, hm]

/-- C3 witness: `"ef ghs"` decodes to `"ef gh"`; `"bs "` (whitespace, no
trailing `s`) is rejected. -/
theorem C3_witness :
    classifyToken "ef ghs".toList = .ok (.str, "ef gh".toList) ∧
    classifyToken "bs ".toList = .error (.nosj .whitespaceOutsideSimple) := by
  constructor
  · exact (C3_whitespace_forces_simple_string "ef ghs".toList (by decide)
      (by decide)).1 "ef gh".toList (by decide) (by decide) (by decide)
  · apply (C3_whitespace_forces_simple_string "bs ".toList (by decide) (by decide)).2
    rintro ⟨w, h1, _, _⟩
    have h2 := congrArg List.getLast? h1
    rw [getLast?_app] at h2
    exact absurd h2 (by decide)

/-- C4 (divergence witness): the code accepts a space inside a
complex-string (percent) token, so an internal space outside any
simple-string token does not make the parse fail; the input
`"(<a:x %20y>)"` parses successfully, emitting `a -- string -- x  y`,
and the CLI returns status 0 with no diagnostic.  This contradicts both
the claim and the source file's own comments ("no whitespace allowed in
tokens for nums/complex strings"). -/
theorem C4_whitespace_in_complex_token_accepted :
    parseMarshalledMap "(<a:x %20y>)".toList
      = .ok [beginMap, "a -- string -- x  y".toList, endMap] ∧
    runMain "(<a:x %20y>)".toList
      = (0, [beginMap, "a -- string -- x  y".toList, endMap], []) :=
  ⟨by decide, by decide⟩

/-- C5 counterexample: `"(<a1:0>)"` does not fail with the invalid-key
error kind; the key scan stops at `'1'`, key `"a"` is valid, and the
parse fails at the following colon check (`Expected ':' after key`). -/
theorem C5_counterexample :
    parseMarshalledMap "(<a1:0>)".toList = .error (.nosj .expectedColon) := by
  decide

/-- C5 (amended): a map key is one or more lowercase letters; a
zero-length key fails with the missing-key error (`"(<A:0>)"`), while a
non-letter character after a nonempty lowercase run ends the key, so
`"(<a1:0>)"` fails with the expected-colon error instead. -/
theorem C5_amended_key_errors :
    parseMarshalledMap "(<A:0>)".toList = .error (.nosj .missingKey) ∧
    parseMarshalledMap "(<a1:0>)".toList = .error (.nosj .expectedColon) ∧
    ∀ (cur : Cursor) (k : List Char) (cur' : Cursor),
      parseKey cur = .ok (k, cur') → k ≠ [] ∧ keyREfullmatch k = true := by
  refine ⟨by decide, by decide, ?_⟩
  intro cur k cur' h
  exact parseKey_ok h

/-- C5 witness: a successfully parsed key is a nonempty `[a-z]+` run. -/
theorem C5_witness :
    "ab".toList ≠ [] ∧ keyREfullmatch "ab".toList = true :=
  C5_amended_key_errors.2.2 ⟨"ab:x".toList, 0⟩ "ab".toList
    ⟨"ab:x".toList, 2⟩ (by decide)

/-- C7: on every input whose parse fails, nothing is written to the
success channel, exactly one `ERROR -- <message>` line is written to the
diagnostic channel (each written line is LF-terminated by the writer),
and the process status is 66. -/
theorem C7_failure_single_error_line (data : List Char) (e : PyErr)
    (h : parseMarshalledMap data = .error e) :
    runMain data = (66, [], ["ERROR -- ".toList ++ e.msg]) := by
  unfold runMain
  rw [h]

/-- C7 witness: the duplicate-key failure yields status 66, empty stdout
and the single diagnostic line. -/
theorem C7_witness :
    runMain "(<a:0,a:1>)".toList
      = (66, [], ["ERROR -- ".toList ++ (PyErr.nosj .duplicateKey).msg]) :=
  C7_failure_single_error_line "(<a:0,a:1>)".toList (.nosj .duplicateKey)
    (by decide)

/-- C9: when `_parse_map_body` delegates to `_parse_value` (i.e. the next
two characters are not `(<`), the returned type is always num or string,
never map, so the internal-error branch is unreachable; and a lone `'('`
at value position raises the structural-character error inside
`_parse_value`. -/
theorem C9_value_never_map :
    (∀ (cur : Cursor) (t : ValType) (v : List Char) (cur2 : Cursor),
        ¬(cur.peek = some '(' ∧ cur.next2 = ['(', '<']) →
        parseValue cur = .ok (t, v, cur2) → t = .num ∨ t = .str) ∧
    (∀ cur : Cursor, cur.peek = some '(' → cur.next2 ≠ ['(', '<'] →
        parseValue cur = .error (.nosj .structuralChar)) := by
  constructor
  · intro cur t v cur2 hg h
    unfold parseValue at h
    rw [if_neg hg] at h
    cases hs : scanTok (cur.s.drop cur.i) with
    | error e => rw [hs] at h; exact absurd h (by simp)
    | ok token =>
      rw [hs] at h
      dsimp only at h
      cases hc : classifyToken token with
      | error e => rw [hc] at h; exact absurd h (by simp)
      | ok p =>
        obtain ⟨t', v'⟩ := p
        rw [hc] at h
        dsimp only at h
        injection h with h1
        injection h1 with h2 h3
        subst h2
        exact classifyToken_ok_type hc
  · intro cur hp hn
    unfold parseValue
    rw [if_neg (by rintro ⟨_, h⟩; exact hn h)]
    unfold Cursor.peek at hp
    cases hd : cur.s.drop (cur.i + 0) with
    | nil => rw [hd] at hp; cases hp
    | cons c rest =>
      rw [hd] at hp
      injection hp with hp
      subst hp
      have hd' : cur.s.drop cur.i = '(' :: rest := by
        rw [← Nat.add_zero cur.i]
        exact hd
      rw [hd']
      unfold scanTok
      rw [if_neg (by decide), if_pos (by decide)]

/-- C9 witness: a num delegation result, and the lone-`'('` structural
error, at concrete cursors. -/
theorem C9_witness :
    (ValType.num = ValType.num ∨ ValType.num = ValType.str) ∧
    parseValue ⟨"(0".toList, 0⟩ = .error (.nosj .structuralChar) :=
  ⟨C9_value_never_map.1 ⟨"0>".toList, 0⟩ .num "0".toList ⟨"0>".toList, 1⟩
      (by decide) (by decide),
   C9_value_never_map.2 ⟨"(0".toList, 0⟩ (by decide) (by decide)⟩

/-- C10: a value token containing a `'%'` and a non-escaped character
above code point 255 makes `parse_marshalled_map` raise `ValueError`
(from `bytearray.append`) rather than `NosjError`; `main` still catches
it, emits the single `ERROR -- ` diagnostic, and returns 66. -/
theorem C10_valueerror_caught :
    parseMarshalledMap "(<a:%41€>)".toList = .error .valueError ∧
    runMain "(<a:%41€>)".toList
      = (66, [], ["ERROR -- byte must be in range(0, 256)".toList]) :=
  ⟨by decide, by decide⟩

/-- C6: a key repeated within one map frame always makes the parse fail
with the duplicate-key error, regardless of the values' types
(contrapositively: every frame of a successful parse has pairwise-distinct
keys), while the same key at different nesting levels — parent and child,
or sibling frames — is accepted. -/
theorem C6_duplicate_keys_per_frame :
    (∀ (input : List Char) (lines : List (List Char)),
        parseMarshalledMap input = .ok lines →
        ∀ fr ∈ framesOf lines, fr.Nodup) ∧
    parseMarshalledMap "(<a:0,a:1>)".toList = .error (.nosj .duplicateKey) ∧
    parseMarshalledMap "(<a:0,a:(<>)>)".toList = .error (.nosj .duplicateKey) ∧
    parseMarshalledMap "(<a:(<a:0>)>)".toList
      = .ok [beginMap, "a -- map -- ".toList, beginMap, "a -- num -- 0".toList,
          endMap, endMap] ∧
    parseMarshalledMap "(<x:(<a:0>),y:(<a:1>)>)".toList
      = .ok [beginMap, "x -- map -- ".toList, beginMap, "a -- num -- 0".toList,
          endMap, "y -- map -- ".toList, beginMap, "a -- num -- -1".toList,
          endMap, endMap] := by
  refine ⟨?_, by decide, by decide, by decide, by decide⟩
  intro input lines h
  obtain ⟨cur1, body, hbody, rfl⟩ := parse_ok_shape h
  obtain ⟨nk, nd, hrun, hnd, hnk, -⟩ := body_frames _ _ _ _ _ _ hbody [] [] []
  have hframes : framesOf (beginMap :: body ++ [endMap]) = nd ++ [nk] := by
    unfold framesOf
    simp only [runStack, List.cons_append] at hrun ⊢
    rw [List.foldl_cons,
      show stepLine ([], []) beginMap = ([[]], []) from by
        unfold stepLine; rw [if_pos rfl],
      List.foldl_append, hrun, List.foldl_cons, List.foldl_nil,
      show stepLine ((([] : List (List Char)) ++ nk) :: [], [] ++ nd) endMap
          = ([], ([] ++ nd) ++ [[] ++ nk]) from by
        unfold stepLine; rw [if_neg (by decide), if_pos rfl]]
    simp
  intro fr hfr
  rw [hframes] at hfr
  rcases List.mem_append.mp hfr with hfr | hfr
  · exact hnd fr hfr
  · rcases List.mem_singleton.mp hfr with rfl
    exact hnk

/-- C6 witness: the keys of the single frame of `"(<x:0,y:1>)"` are
pairwise distinct. -/
theorem C6_witness : List.Nodup ["x".toList, "y".toList] :=
  C6_duplicate_keys_per_frame.1 "(<x:0,y:1>)".toList
    [beginMap, "x -- num -- 0".toList, "y -- num -- -1".toList, endMap]
    (by decide) ["x".toList, "y".toList] (by decide)

/-- C8: on every successful parse, the emitted line list has equally many
`begin-map` and `end-map` lines, a stack-based balance check over it never
goes negative (`balAux` never returns `none` and ends at depth 0), it
begins with `begin-map` and ends with `end-map`, and every
`<key> -- map -- ` line is immediately followed by `begin-map`. -/
theorem C8_output_balanced :
    ∀ (input : List Char) (lines : List (List Char)),
      parseMarshalledMap input = .ok lines →
      balAux 0 lines = some 0 ∧
      lines.count beginMap = lines.count endMap ∧
      lines.head? = some beginMap ∧
      lines.getLast? = some endMap ∧
      mapsFollowedBy lines = true := by
  intro input lines h
  obtain ⟨cur1, body, hbody, rfl⟩ := parse_ok_shape h
  obtain ⟨hb, hm⟩ := body_struct _ _ _ _ _ _ hbody
  have hbal : balAux 0 (beginMap :: body ++ [endMap]) = some 0 := by
    rw [List.cons_append, balAux_cons, if_pos rfl, balAux_append _ _ _ _ (hb 1)]
    decide
  refine ⟨hbal, ?_, rfl, ?_, ?_⟩
  · have hcount := balAux_count _ _ _ hbal
    omega
  · exact getLast?_app _ _
  · rw [List.cons_append,
      mf_cons_not_mapline (by decide : isMapLine beginMap = false), hm [endMap]]
    decide

/-- C8 witness: the balance properties at the concrete nested input
`"(<x:(<y:1000>)>)"`. -/
theorem C8_witness :
    balAux 0 [beginMap, "x -- map -- ".toList, beginMap,
        "y -- num -- -8".toList, endMap, endMap] = some 0 ∧
    List.count beginMap [beginMap, "x -- map -- ".toList, beginMap,
        "y -- num -- -8".toList, endMap, endMap]
      = List.count endMap [beginMap, "x -- map -- ".toList, beginMap,
        "y -- num -- -8".toList, endMap, endMap] ∧
    List.head? [beginMap, "x -- map -- ".toList, beginMap,
        "y -- num -- -8".toList, endMap, endMap] = some beginMap ∧
    List.getLast? [beginMap, "x -- map -- ".toList, beginMap,
        "y -- num -- -8".toList, endMap, endMap] = some endMap ∧
    mapsFollowedBy [beginMap, "x -- map -- ".toList, beginMap,
        "y -- num -- -8".toList, endMap, endMap] = true :=
  C8_output_balanced "(<x:(<y:1000>)>)".toList
    [beginMap, "x -- map -- ".toList, beginMap, "y -- num -- -8".toList,
      endMap, endMap] (by decide)

end Nosj